import Mathlib

/-!
Verification of the GitHub-Graph-Commit-Times pipeline (main.go).

The Go source is shallowly embedded: `processCommits` (main.go:89-108) becomes a
`List.foldl` over a 24-bucket histogram, the pagination loops of `fetchCommits`
(main.go:41-60) and `fetchUserRepos` (main.go:63-86) become fuel-indexed
recursions over an abstract API call (the `for` loop in Go is unbounded, so the
fuel models the iteration count; `none` is returned when the fuel runs out or a
page request fails, mirroring the `return nil, err` path), and the startup-time
argument/credential checks of `main` (main.go:191-204) become a pure decision
function `mainStartup` whose `proceed` outcome is the only one in which the
program goes on to construct the API client and perform network calls.
-/

/-- Embedding of Go `time.Time` as carried by the GitHub API: an absolute
instant (seconds since the Unix epoch) together with the zone offset (seconds
east of UTC) that the timestamp carries. -/
structure GoTime where
  unixSec : Int
  offsetSec : Int
deriving DecidableEq

/-- Go `time.Time.Hour()`: the hour of the wall clock in the time's own zone,
i.e. of `unixSec + offsetSec`; the Euclidean `%` keeps the remainder in
`[0, 86400)` exactly as Go's internal absolute-time arithmetic does. -/
def GoTime.hour (t : GoTime) : Nat :=
  ((t.unixSec + t.offsetSec) % 86400).toNat / 3600

/-- The zero `time.Time` (January 1, year 1, 00:00:00 UTC), which
`GetDate` returns when the `Date` field is nil. -/
def zeroTime : GoTime := GoTime.mk (-62135596800) 0

/-- go-github `CommitAuthor`: `Name`, `Email`, `Date` are all pointers
(hence `Option`). -/
structure CommitAuthor where
  name : Option String
  email : Option String
  date : Option GoTime
deriving DecidableEq

/-- go-github `CommitAuthor.GetName`: the zero string when the field is nil. -/
def CommitAuthor.getName (a : CommitAuthor) : String := a.name.getD ""

/-- go-github `CommitAuthor.GetEmail`: the zero string when the field is nil. -/
def CommitAuthor.getEmail (a : CommitAuthor) : String := a.email.getD ""

/-- go-github `CommitAuthor.GetDate`: the zero `time.Time` when the field is
nil. -/
def CommitAuthor.getDate (a : CommitAuthor) : GoTime := a.date.getD zeroTime

/-- go-github `Commit`, restricted to the field the program reads. -/
structure Commit where
  committer : Option CommitAuthor
deriving DecidableEq

/-- go-github `RepositoryCommit`, restricted to the field the program reads. -/
structure RepositoryCommit where
  commit : Option Commit
deriving DecidableEq

/-- go-github `Repository`, restricted to the fields the program reads. -/
structure Repository where
  name : Option String
  fork : Option Bool
deriving DecidableEq

/-- go-github `Repository.GetFork`: false when the field is nil. -/
def Repository.getFork (r : Repository) : Bool := r.fork.getD false

/-- The `[24]int` hourly histogram of main.go, as a function from bucket
index to count (counts only ever increase from zero, so `Nat`). -/
abbrev Histogram : Type := Fin 24 → Nat

/-- `hourlyCommits := [24]int{}` — the zero-initialized histogram. -/
def zeroHist : Histogram := fun _ => 0

/-- `hourlyCommits[hour]++` (main.go:104). -/
def incrAt (h : Histogram) (i : Nat) : Histogram :=
  fun j => if (j : Nat) = i then h j + 1 else h j

/-- The Driver's element-wise merge
`hourlyCommits[hour] += repoHourlyCommits[hour]` (main.go:248-250). -/
def mergeHist (h g : Histogram) : Histogram := fun j => h j + g j

/-- Sum of all 24 buckets of a histogram. -/
def histSum (h : Histogram) : Nat := Finset.univ.sum h

/-- The committer of a `RepositoryCommit`, when both `commit.Commit` and
`commit.Commit.Committer` are non-nil (the guard at main.go:93). -/
def commitCommitter (rc : RepositoryCommit) : Option CommitAuthor :=
  match rc.commit with
  | none => none
  | some c => c.committer

/-- Whether a commit has committer metadata present (passes the nil checks at
main.go:93). -/
def hasCommitter (rc : RepositoryCommit) : Bool := (commitCommitter rc).isSome

/-- One iteration of the loop body of `processCommits` (main.go:92-105):
skip on missing committer metadata, skip on a non-empty filter matching
neither name nor email, otherwise increment the bucket of the committer
timestamp's hour. -/
def processStep (usernameFilter : String) (h : Histogram) (rc : RepositoryCommit) :
    Histogram :=
  match commitCommitter rc with
  | none => h
  | some committer =>
    if usernameFilter ≠ "" ∧ committer.getName ≠ usernameFilter ∧
        committer.getEmail ≠ usernameFilter then h
    else incrAt h committer.getDate.hour

/-- `processCommits` (main.go:89-108): a single linear pass over the commits,
starting from the zero histogram. -/
def processCommits (commits : List RepositoryCommit) (usernameFilter : String) :
    Histogram :=
  commits.foldl (processStep usernameFilter) zeroHist

/-- go-github `ListOptions` as used by `fetchCommits` (main.go:43): page size
and page number (`Page` is 0, the zero value, on the first request). -/
structure ListOptions where
  perPage : Nat
  page : Nat
deriving DecidableEq

/-- The pagination loop of `fetchCommits` (main.go:45-57). `call` abstracts
`client.Repositories.ListCommits`, returning the page's records and
`resp.NextPage` (0 meaning no further page), or `none` on error. The Go `for`
loop is unbounded, so `fuel` bounds the number of iterations modelled;
exhausted fuel, like a failed page request, yields `none` (the `return nil,
err` path at main.go:48). -/
def fetchLoop {α : Type} (call : ListOptions → Option (List α × Nat)) :
    Nat → ListOptions → List α → Option (List α)
  | 0, _, _ => none
  | fuel+1, opt, acc =>
    match call opt with
    | none => none
    | some (items, next) =>
      if next = 0 then some (acc ++ items)
      else fetchLoop call fuel (ListOptions.mk opt.perPage next) (acc ++ items)

/-- `fetchCommits` (main.go:41-60): run the pagination loop starting from
`PerPage: 100`, `Page` at its zero value, and an empty accumulator. -/
def fetchCommits (call : ListOptions → Option (List RepositoryCommit × Nat))
    (fuel : Nat) : Option (List RepositoryCommit) :=
  fetchLoop call fuel (ListOptions.mk 100 0) []

/-- A synthetic paginated API serving a fixed list of pages: page number 0 or
1 serves the first page, page number `i+1` serves `pages[i]`, and the reported
next page is `i+2` while more pages remain, 0 once the last page was served.
It answers only requests with `perPage = 100`, so a successful fetch also
certifies the page size every request carried. -/
def servePages {α : Type} (pages : List (List α)) (opt : ListOptions) :
    Option (List α × Nat) :=
  if opt.perPage = 100 then
    let idx := if opt.page = 0 then 0 else opt.page - 1
    some (pages.getD idx [], if idx + 1 < pages.length then idx + 2 else 0)
  else none

/-- go-github `RepositoryListOptions` as used by `fetchUserRepos`
(main.go:65): the visibility type filter plus the embedded `ListOptions`. -/
structure RepositoryListOptions where
  type : String
  perPage : Nat
  page : Nat
deriving DecidableEq

/-- The pagination loop of `fetchUserRepos` (main.go:67-83): same shape as
`fetchLoop`, but each page is filtered client-side to drop fork-flagged
repositories (main.go:73-77) before being appended. -/
def fetchUserReposLoop (call : RepositoryListOptions → Option (List Repository × Nat)) :
    Nat → RepositoryListOptions → List Repository → Option (List Repository)
  | 0, _, _ => none
  | fuel+1, opt, acc =>
    match call opt with
    | none => none
    | some (repos, next) =>
      if next = 0 then some (acc ++ repos.filter (fun r => !r.getFork))
      else fetchUserReposLoop call fuel (RepositoryListOptions.mk opt.type opt.perPage next)
        (acc ++ repos.filter (fun r => !r.getFork))

/-- `fetchUserRepos` (main.go:63-86): run the loop with the server-side filter
`Type: "public"`, `PerPage: 100`, and page at its zero value. -/
def fetchUserRepos (call : RepositoryListOptions → Option (List Repository × Nat))
    (fuel : Nat) : Option (List Repository) :=
  fetchUserReposLoop call fuel (RepositoryListOptions.mk "public" 100 0) []

/-- Outcome of the startup checks of `main` (main.go:191-209). Only on
`proceed` does the program construct the OAuth client and go on to any
network activity (main.go:206-209); both exit outcomes happen strictly
before that. -/
inductive StartupOutcome where
  | usageExit (code : Nat)
  | fatalExit (code : Nat)
  | proceed (token : String)
deriving DecidableEq

/-- The startup checks of `main` (main.go:191-204), in source order: `-h`
prints usage and exits 0 (`showUsage`, main.go:179 `os.Exit(0)`); no
positional args, no `--repo` and no `--user` prints an error message and then
also calls `showUsage`, hence also exits 0; a missing `GITHUB_TOKEN`
(`os.Getenv` returns "" when the variable is absent, modelled by
`env.getD ""`) hits `log.Fatal`, which exits with status 1. -/
def mainStartup (helpFlag : Bool) (repoArgs : List String)
    (repoFilter userFilter : String) (env : Option String) : StartupOutcome :=
  if helpFlag then StartupOutcome.usageExit 0
  else if repoArgs = [] ∧ repoFilter = "" ∧ userFilter = "" then
    StartupOutcome.usageExit 0
  else if env.getD "" = "" then StartupOutcome.fatalExit 1
  else StartupOutcome.proceed (env.getD "")

/-- Go's `Hour()` always lands in `[0, 24)`, so the array index at
main.go:104 is always in bounds. -/
theorem GoTime.hour_lt (t : GoTime) : t.hour < 24 := by
  unfold GoTime.hour
  have h1 : 0 ≤ (t.unixSec + t.offsetSec) % 86400 :=
    Int.emod_nonneg _ (by norm_num)
  have h2 : (t.unixSec + t.offsetSec) % 86400 < 86400 :=
    Int.emod_lt_of_pos _ (by norm_num)
  have h3 : ((t.unixSec + t.offsetSec) % 86400).toNat < 86400 := by omega
  exact (Nat.div_lt_iff_lt_mul (by norm_num)).2 (by omega)

theorem histSum_zeroHist : histSum zeroHist = 0 := by
  simp [histSum, zeroHist]

theorem incrAt_eq_add (h : Histogram) (i : Nat) :
    incrAt h i = fun j => h j + (if (j : Nat) = i then 1 else 0) := by
  funext j
  by_cases hj : (j : Nat) = i
  · rw [incrAt, if_pos hj, if_pos hj]
  · rw [incrAt, if_neg hj, if_neg hj, Nat.add_zero]

theorem histSum_incrAt (h : Histogram) (i : Nat) (hi : i < 24) :
    histSum (incrAt h i) = histSum h + 1 := by
  have hind : (Finset.univ.sum fun j : Fin 24 => if (j : Nat) = i then 1 else 0) = 1 := by
    calc (Finset.univ.sum fun j : Fin 24 => if (j : Nat) = i then 1 else 0)
        = Finset.univ.sum fun j : Fin 24 => if j = (⟨i, hi⟩ : Fin 24) then 1 else 0 := by
          apply Finset.sum_congr rfl
          intro j _
          by_cases hj : (j : Nat) = i
          · rw [if_pos hj, if_pos (Fin.eq_of_val_eq hj)]
          · rw [if_neg hj, if_neg (fun hc => hj (by rw [hc]))]
      _ = 1 := by
          rw [Finset.sum_ite_eq' Finset.univ (⟨i, hi⟩ : Fin 24) (fun _ => 1)]
          simp
  rw [incrAt_eq_add]
  unfold histSum
  rw [Finset.sum_add_distrib, hind]

theorem incrAt_merge (h g : Histogram) (i : Nat) :
    incrAt (mergeHist h g) i = mergeHist h (incrAt g i) := by
  funext j
  by_cases hj : (j : Nat) = i
  · simp only [incrAt, mergeHist, if_pos hj]
    omega
  · simp only [incrAt, mergeHist, if_neg hj]

theorem mergeHist_zero (h : Histogram) : mergeHist h zeroHist = h := by
  funext j
  simp [mergeHist, zeroHist]

theorem commitCommitter_eq (rc : RepositoryCommit) (c : Commit) (a : CommitAuthor)
    (hc : rc.commit = some c) (hcc : c.committer = some a) :
    commitCommitter rc = some a := by
  unfold commitCommitter
  rw [hc]
  exact hcc

theorem processStep_none (f : String) (h : Histogram) (rc : RepositoryCommit)
    (ha : commitCommitter rc = none) : processStep f h rc = h := by
  unfold processStep
  rw [ha]

theorem processStep_some (f : String) (h : Histogram) (rc : RepositoryCommit)
    (a : CommitAuthor) (ha : commitCommitter rc = some a) :
    processStep f h rc =
      if f ≠ "" ∧ a.getName ≠ f ∧ a.getEmail ≠ f then h
      else incrAt h a.getDate.hour := by
  unfold processStep
  rw [ha]

theorem processStep_merge (f : String) (h g : Histogram) (rc : RepositoryCommit) :
    processStep f (mergeHist h g) rc = mergeHist h (processStep f g rc) := by
  cases ha : commitCommitter rc with
  | none => rw [processStep_none f _ rc ha, processStep_none f g rc ha]
  | some a =>
    rw [processStep_some f _ rc a ha, processStep_some f g rc a ha]
    by_cases hcond : f ≠ "" ∧ a.getName ≠ f ∧ a.getEmail ≠ f
    · rw [if_pos hcond, if_pos hcond]
    · rw [if_neg hcond, if_neg hcond, incrAt_merge]

theorem foldl_processStep_merge (f : String) (h : Histogram)
    (l : List RepositoryCommit) : ∀ g : Histogram,
    l.foldl (processStep f) (mergeHist h g) = mergeHist h (l.foldl (processStep f) g) := by
  induction l with
  | nil => intro g; rfl
  | cons rc l ih =>
    intro g
    rw [List.foldl_cons, List.foldl_cons, processStep_merge, ih]

theorem histSum_processStep_empty (h : Histogram) (rc : RepositoryCommit) :
    histSum (processStep "" h rc) = histSum h + (if hasCommitter rc then 1 else 0) := by
  cases ha : commitCommitter rc with
  | none =>
    rw [processStep_none "" h rc ha]
    simp [hasCommitter, ha]
  | some a =>
    rw [processStep_some "" h rc a ha,
      if_neg (fun hcontra => hcontra.1 rfl),
      histSum_incrAt h _ (GoTime.hour_lt _)]
    simp [hasCommitter, ha]

theorem histSum_foldl_empty (l : List RepositoryCommit) : ∀ h : Histogram,
    histSum (l.foldl (processStep "") h) = histSum h + l.countP hasCommitter := by
  induction l with
  | nil => intro h; simp
  | cons rc l ih =>
    intro h
    rw [List.foldl_cons, ih, histSum_processStep_empty, List.countP_cons]
    by_cases hrc : hasCommitter rc
    · simp only [hrc, if_true]
      omega
    · simp only [Bool.not_eq_true] at hrc
      simp only [hrc]
      omega

theorem processStep_not_committer (f : String) (h : Histogram)
    (rc : RepositoryCommit) (hrc : hasCommitter rc = false) :
    processStep f h rc = h := by
  unfold hasCommitter at hrc
  cases ha : commitCommitter rc with
  | none => exact processStep_none f h rc ha
  | some a =>
    rw [ha] at hrc
    simp at hrc

theorem foldl_processStep_filter (f : String) (l : List RepositoryCommit) :
    ∀ h : Histogram,
    l.foldl (processStep f) h = (l.filter hasCommitter).foldl (processStep f) h := by
  induction l with
  | nil => intro h; rfl
  | cons rc l ih =>
    intro h
    by_cases hrc : hasCommitter rc
    · rw [List.foldl_cons, List.filter_cons_of_pos hrc, List.foldl_cons]
      exact ih _
    · simp only [Bool.not_eq_true] at hrc
      rw [List.foldl_cons, processStep_not_committer f h rc hrc,
        List.filter_cons_of_neg (by simp [hrc])]
      exact ih h

theorem processCommits_cons_counted (rc : RepositoryCommit) (a : CommitAuthor)
    (rest : List RepositoryCommit) (f : String)
    (ha : commitCommitter rc = some a)
    (hpass : f = "" ∨ a.getName = f ∨ a.getEmail = f) :
    ∀ j : Fin 24, processCommits (rc :: rest) f j
      = (if (j : Nat) = a.getDate.hour then 1 else 0) + processCommits rest f j := by
  intro j
  have hcond : ¬(f ≠ "" ∧ a.getName ≠ f ∧ a.getEmail ≠ f) := by
    rcases hpass with h1 | h1 | h1
    · exact fun hcontra => hcontra.1 h1
    · exact fun hcontra => hcontra.2.1 h1
    · exact fun hcontra => hcontra.2.2 h1
  unfold processCommits
  rw [List.foldl_cons, processStep_some f zeroHist rc a ha, if_neg hcond]
  have hmerge : incrAt zeroHist a.getDate.hour
      = mergeHist (incrAt zeroHist a.getDate.hour) zeroHist :=
    (mergeHist_zero _).symm
  rw [hmerge, foldl_processStep_merge]
  simp only [mergeHist, incrAt, zeroHist]

theorem fetchLoop_succ_some {α : Type} (call : ListOptions → Option (List α × Nat))
    (fuel : Nat) (opt : ListOptions) (acc items : List α) (next : Nat)
    (hcall : call opt = some (items, next)) :
    fetchLoop call (fuel + 1) opt acc
      = if next = 0 then some (acc ++ items)
        else fetchLoop call fuel (ListOptions.mk opt.perPage next) (acc ++ items) := by
  simp only [fetchLoop]
  rw [hcall]

theorem servePages_succ {α : Type} (pages : List (List α)) (k : Nat) :
    servePages pages (ListOptions.mk 100 (k + 1))
      = some (pages.getD k [], if k + 1 < pages.length then k + 2 else 0) := by
  simp [servePages]

theorem servePages_zero {α : Type} (pages : List (List α)) :
    servePages pages (ListOptions.mk 100 0)
      = some (pages.getD 0 [], if 1 < pages.length then 2 else 0) := by
  simp [servePages]

theorem drop_getD_cons {α : Type} (pages : List (List α)) :
    ∀ k : Nat, k < pages.length →
    pages.drop k = pages.getD k [] :: pages.drop (k + 1) := by
  induction pages with
  | nil => intro k hk; simp at hk
  | cons p ps ih =>
    intro k hk
    cases k with
    | zero => rfl
    | succ k =>
      have hk' : k < ps.length := by
        simpa using hk
      simpa using ih k hk'

theorem fetchLoop_servePages {α : Type} (pages : List (List α)) :
    ∀ (fuel k : Nat) (acc : List α), k < pages.length → pages.length - k ≤ fuel →
    fetchLoop (servePages pages) fuel (ListOptions.mk 100 (k + 1)) acc
      = some (acc ++ (pages.drop k).flatten) := by
  intro fuel
  induction fuel with
  | zero =>
    intro k acc hk hf
    omega
  | succ fuel ih =>
    intro k acc hk hf
    rw [fetchLoop_succ_some (servePages pages) fuel (ListOptions.mk 100 (k + 1))
      acc (pages.getD k []) (if k + 1 < pages.length then k + 2 else 0)
      (servePages_succ pages k)]
    by_cases hmore : k + 1 < pages.length
    · rw [if_pos hmore, if_neg (by omega)]
      rw [drop_getD_cons pages k hk, List.flatten_cons, ← List.append_assoc]
      exact ih (k + 1) (acc ++ pages.getD k []) hmore (by omega)
    · rw [if_neg hmore, if_pos rfl]
      rw [drop_getD_cons pages k hk]
      have hdrop : pages.drop (k + 1) = [] := List.drop_eq_nil_of_le (by omega)
      rw [hdrop]
      simp

theorem fetchUserReposLoop_succ_some
    (call : RepositoryListOptions → Option (List Repository × Nat))
    (fuel : Nat) (opt : RepositoryListOptions) (acc repos : List Repository)
    (next : Nat) (hcall : call opt = some (repos, next)) :
    fetchUserReposLoop call (fuel + 1) opt acc
      = if next = 0 then some (acc ++ repos.filter (fun r => !r.getFork))
        else fetchUserReposLoop call fuel
          (RepositoryListOptions.mk opt.type opt.perPage next)
          (acc ++ repos.filter (fun r => !r.getFork)) := by
  simp only [fetchUserReposLoop]
  rw [hcall]

theorem fetchUserReposLoop_succ_none
    (call : RepositoryListOptions → Option (List Repository × Nat))
    (fuel : Nat) (opt : RepositoryListOptions) (acc : List Repository)
    (hcall : call opt = none) :
    fetchUserReposLoop call (fuel + 1) opt acc = none := by
  simp only [fetchUserReposLoop]
  rw [hcall]

theorem fetchUserReposLoop_no_forks
    (call : RepositoryListOptions → Option (List Repository × Nat)) :
    ∀ (fuel : Nat) (opt : RepositoryListOptions) (acc rs : List Repository),
    (∀ r ∈ acc, r.getFork = false) →
    fetchUserReposLoop call fuel opt acc = some rs →
    ∀ r ∈ rs, r.getFork = false := by
  intro fuel
  induction fuel with
  | zero =>
    intro opt acc rs _ hloop
    simp [fetchUserReposLoop] at hloop
  | succ fuel ih =>
    intro opt acc rs hacc hloop
    cases hcall : call opt with
    | none =>
      rw [fetchUserReposLoop_succ_none call fuel opt acc hcall] at hloop
      exact absurd hloop (by simp)
    | some pr =>
      rcases pr with ⟨repos, next⟩
      rw [fetchUserReposLoop_succ_some call fuel opt acc repos next hcall] at hloop
      have hacc2 : ∀ r ∈ acc ++ repos.filter (fun r => !r.getFork),
          r.getFork = false := by
        intro r hr
        rcases List.mem_append.1 hr with hr1 | hr1
        · exact hacc r hr1
        · have := (List.mem_filter.1 hr1).2
          simpa using this
      by_cases hnext : next = 0
      · rw [if_pos hnext] at hloop
        have hrs : rs = acc ++ repos.filter (fun r => !r.getFork) :=
          (Option.some_inj.1 hloop).symm
        rw [hrs]
        exact hacc2
      · rw [if_neg hnext] at hloop
        exact ih _ _ rs hacc2 hloop

/-- C1: aggregation is a merge homomorphism — for any two commit sequences A
and B and any identity filter f, the element-wise sum of
`processCommits A f` and `processCommits B f` equals
`processCommits (A ++ B) f`, and the element-wise merge is commutative, so
per-repository histograms may be merged in any order. -/
theorem processCommits_append_merge (A B : List RepositoryCommit) (f : String) :
    mergeHist (processCommits A f) (processCommits B f) = processCommits (A ++ B) f
    ∧ ∀ h g : Histogram, mergeHist h g = mergeHist g h := by
  constructor
  · unfold processCommits
    calc mergeHist (A.foldl (processStep f) zeroHist) (B.foldl (processStep f) zeroHist)
        = B.foldl (processStep f)
            (mergeHist (A.foldl (processStep f) zeroHist) zeroHist) := by
          rw [foldl_processStep_merge]
      _ = B.foldl (processStep f) (A.foldl (processStep f) zeroHist) := by
          rw [mergeHist_zero]
      _ = (A ++ B).foldl (processStep f) zeroHist := by
          rw [List.foldl_append]
  · intro h g
    funext j
    exact Nat.add_comm (h j) (g j)

/-- C2: with an empty (absent) identity filter, the 24 bucket values of the
aggregated histogram sum to exactly the number of commits in the input that
have committer metadata present. -/
theorem processCommits_total_empty_filter (commits : List RepositoryCommit) :
    histSum (processCommits commits "") = commits.countP hasCommitter := by
  unfold processCommits
  rw [histSum_foldl_empty, histSum_zeroHist, Nat.zero_add]

/-- C3: the commit fetch retrieves all commits, not just the first page — run
against a synthetic API serving any finite list of pages (and answering only
requests with page size 100), the pagination loop terminates within one
request per page and returns exactly the concatenation of all the pages,
stopping when the API reports next page 0. -/
theorem fetchCommits_concat_pages (pages : List (List RepositoryCommit)) :
    fetchCommits (servePages pages) (pages.length + 1) = some pages.flatten := by
  unfold fetchCommits
  rw [fetchLoop_succ_some (servePages pages) pages.length (ListOptions.mk 100 0) []
    (pages.getD 0 []) (if 1 < pages.length then 2 else 0) (servePages_zero pages)]
  cases pages with
  | nil => simp
  | cons p ps =>
    cases ps with
    | nil => simp
    | cons q qs =>
      have hlen : 1 < (p :: q :: qs).length := by
        simp only [List.length_cons]
        omega
      rw [if_pos hlen, if_neg (by omega)]
      exact fetchLoop_servePages (p :: q :: qs) (p :: q :: qs).length 1 ([] ++ p)
        hlen (by omega)

/-- C4: a commit with committer metadata present is counted under a non-empty
identity filter exactly when the filter equals the committer's display name
or the committer's email, compared exactly (String equality, hence
case-sensitive), either field sufficing. -/
theorem processCommits_identity_filter (rc : RepositoryCommit) (c : Commit)
    (a : CommitAuthor) (f : String) (hc : rc.commit = some c)
    (hcc : c.committer = some a) (hf : f ≠ "") :
    histSum (processCommits [rc] f)
      = if a.getName = f ∨ a.getEmail = f then 1 else 0 := by
  have ha := commitCommitter_eq rc c a hc hcc
  unfold processCommits
  rw [List.foldl_cons, List.foldl_nil, processStep_some f zeroHist rc a ha]
  by_cases hmatch : a.getName = f ∨ a.getEmail = f
  · have hskip : ¬(f ≠ "" ∧ a.getName ≠ f ∧ a.getEmail ≠ f) := fun hcontra =>
      hmatch.elim (fun h1 => hcontra.2.1 h1) (fun h1 => hcontra.2.2 h1)
    rw [if_neg hskip, if_pos hmatch,
      histSum_incrAt zeroHist _ (GoTime.hour_lt _), histSum_zeroHist]
  · push_neg at hmatch
    rw [if_pos ⟨hf, hmatch.1, hmatch.2⟩,
      if_neg (fun hcontra => hcontra.elim (fun h1 => hmatch.1 h1) (fun h1 => hmatch.2 h1)),
      histSum_zeroHist]

/-- C4 witness: a commit with name "alice" and email "alice@example.com" is
counted under the filter "alice". -/
theorem processCommits_identity_filter_witness :
    histSum (processCommits [RepositoryCommit.mk (some (Commit.mk (some
      (CommitAuthor.mk (some "alice") (some "alice@example.com") none))))]
      "alice") = 1 := by
  rw [processCommits_identity_filter
    (RepositoryCommit.mk (some (Commit.mk (some
      (CommitAuthor.mk (some "alice") (some "alice@example.com") none)))))
    (Commit.mk (some (CommitAuthor.mk (some "alice") (some "alice@example.com") none)))
    (CommitAuthor.mk (some "alice") (some "alice@example.com") none)
    "alice" rfl rfl (by decide)]
  decide

/-- C5: a counted commit increments exactly the bucket indexed by the
hour-of-day of its committer timestamp, the hour being taken in whatever
timezone offset the timestamp carries (two timestamps denoting the same
absolute instant but carrying different offsets can land in different
buckets — no normalization to UTC). -/
theorem processCommits_hour_bucket (rc : RepositoryCommit) (c : Commit)
    (a : CommitAuthor) (rest : List RepositoryCommit) (f : String)
    (hc : rc.commit = some c) (hcc : c.committer = some a)
    (hpass : f = "" ∨ a.getName = f ∨ a.getEmail = f) :
    (∀ j : Fin 24, processCommits (rc :: rest) f j
      = (if (j : Nat) = a.getDate.hour then 1 else 0) + processCommits rest f j)
    ∧ ∃ t1 t2 : GoTime, t1.unixSec = t2.unixSec ∧ t1.hour ≠ t2.hour := by
  refine ⟨processCommits_cons_counted rc a rest f
    (commitCommitter_eq rc c a hc hcc) hpass, ?_⟩
  exact ⟨GoTime.mk 0 0, GoTime.mk 0 3600, rfl, by decide⟩

/-- C5 witness: a commit at 12:30:00 UTC (unix 45000, offset 0) lands in
bucket 12. -/
theorem processCommits_hour_bucket_witness :
    processCommits [RepositoryCommit.mk (some (Commit.mk (some
      (CommitAuthor.mk (some "alice") (some "alice@example.com")
        (some (GoTime.mk 45000 0))))))] "" 12 = 1 := by
  have h := processCommits_hour_bucket
    (RepositoryCommit.mk (some (Commit.mk (some
      (CommitAuthor.mk (some "alice") (some "alice@example.com")
        (some (GoTime.mk 45000 0)))))))
    (Commit.mk (some (CommitAuthor.mk (some "alice") (some "alice@example.com")
      (some (GoTime.mk 45000 0)))))
    (CommitAuthor.mk (some "alice") (some "alice@example.com")
      (some (GoTime.mk 45000 0)))
    [] "" rfl rfl (Or.inl rfl)
  rw [h.1 12]
  decide

/-- C6: repositories flagged as forks never appear in the result of account
enumeration — whatever pages the API serves, every repository in a successful
`fetchUserRepos` result has its fork flag false (the client-side filter at
main.go:73-77; the server-side `Type: "public"` filter is part of the
`fetchUserRepos` definition). -/
theorem fetchUserRepos_no_forks
    (call : RepositoryListOptions → Option (List Repository × Nat))
    (fuel : Nat) (rs : List Repository)
    (h : fetchUserRepos call fuel = some rs) :
    ∀ r ∈ rs, r.getFork = false :=
  fetchUserReposLoop_no_forks call fuel (RepositoryListOptions.mk "public" 100 0)
    [] rs (fun r hr => absurd hr (List.not_mem_nil r)) h

/-- C6 witness: an API page containing one fork and one non-fork yields a
result containing only the non-fork, whose flag is false. -/
theorem fetchUserRepos_no_forks_witness :
    Repository.getFork (Repository.mk (some "b") (some false)) = false :=
  fetchUserRepos_no_forks
    (fun _ => some ([Repository.mk (some "a") (some true),
      Repository.mk (some "b") (some false)], 0)) 1
    [Repository.mk (some "b") (some false)] (by decide)
    (Repository.mk (some "b") (some false)) (by decide)

/-- C7: when no target is resolvable (no positional arguments, no `--repo`,
no `--user`), `main` prints the error message and exits before reading the
token or touching the network — but through `showUsage`, whose `os.Exit(0)`
gives exit status 0, not the non-zero status the specification requires.
This theorem evaluates the startup model at the failing input: whatever the
`GITHUB_TOKEN` environment holds, the outcome is `usageExit 0`. -/
theorem mainStartup_no_target_exit_zero (env : Option String) :
    mainStartup false [] "" "" env = StartupOutcome.usageExit 0 := rfl

/-- C8: with some target resolvable but the `GITHUB_TOKEN` environment
variable absent, startup ends in `log.Fatal`, i.e. exit status 1 (non-zero),
before the API client is constructed — network activity happens only in the
`proceed` outcome. -/
theorem mainStartup_missing_token_fatal (repoArgs : List String)
    (repoFilter userFilter : String)
    (htarget : ¬(repoArgs = [] ∧ repoFilter = "" ∧ userFilter = "")) :
    mainStartup false repoArgs repoFilter userFilter none
      = StartupOutcome.fatalExit 1 := by
  unfold mainStartup
  rw [if_neg (by simp), if_neg htarget]
  rfl

/-- C8 witness: a run given one positional repository argument and no token
exits fatally with status 1. -/
theorem mainStartup_missing_token_fatal_witness :
    mainStartup false ["HariSekhon/DevOps-Bash-tools"] "" "" none
      = StartupOutcome.fatalExit 1 :=
  mainStartup_missing_token_fatal ["HariSekhon/DevOps-Bash-tools"] "" ""
    (by decide)

/-- C9: the aggregator is total — it is a pure Lean function returning a
histogram indexed by `Fin 24` (hence always exactly 24 buckets, no failure
mode) — and commits missing committer metadata are silently skipped: removing
them from the input changes nothing, so each contributes 0 to every bucket
regardless of the filter. -/
theorem processCommits_skips_missing_committer (commits : List RepositoryCommit)
    (f : String) :
    processCommits commits f = processCommits (commits.filter hasCommitter) f := by
  unfold processCommits
  exact foldl_processStep_filter f commits zeroHist

/-- C10: a commit whose committer metadata is present but whose committer
timestamp is absent is still counted (provided it passes the identity
filter) and always lands in bucket 0, because `GetDate` returns the zero
`time.Time`, whose hour is 0. -/
theorem processCommits_missing_date_bucket_zero (rc : RepositoryCommit)
    (c : Commit) (a : CommitAuthor) (rest : List RepositoryCommit) (f : String)
    (hc : rc.commit = some c) (hcc : c.committer = some a)
    (hdate : a.date = none)
    (hpass : f = "" ∨ a.getName = f ∨ a.getEmail = f) :
    ∀ j : Fin 24, processCommits (rc :: rest) f j
      = (if (j : Nat) = 0 then 1 else 0) + processCommits rest f j := by
  have hhour : a.getDate.hour = 0 := by
    unfold CommitAuthor.getDate
    rw [hdate]
    decide
  have h := processCommits_cons_counted rc a rest f
    (commitCommitter_eq rc c a hc hcc) hpass
  intro j
  rw [h j, hhour]

/-- C10 witness: a commit with committer name and email but no date is
counted into bucket 0. -/
theorem processCommits_missing_date_bucket_zero_witness :
    processCommits [RepositoryCommit.mk (some (Commit.mk (some
      (CommitAuthor.mk (some "bob") (some "bob@example.com") none))))] "" 0
      = 1 := by
  have h := processCommits_missing_date_bucket_zero
    (RepositoryCommit.mk (some (Commit.mk (some
      (CommitAuthor.mk (some "bob") (some "bob@example.com") none)))))
    (Commit.mk (some (CommitAuthor.mk (some "bob") (some "bob@example.com") none)))
    (CommitAuthor.mk (some "bob") (some "bob@example.com") none)
    [] "" rfl rfl rfl (Or.inl rfl)
  rw [h 0]
  decide
